import Mathlib

/-!
Shallow embedding of the user-facing clip logic of the podcast-clip
application: the upload/analysis handler and clip presentation
(`ContentFactory.tsx`), the caption editor (`SubtitleEditor.tsx`), the
processing-timeframe controls (`Dashboard.tsx`), the score colouring in the
clip detail view (`ClipDetailView.tsx`) and the active-caption lookup of the
reels view (`ReelsView.tsx`).

JavaScript numbers are modelled as rationals (ℚ); JavaScript strings that the
code splits or parses character-by-character are modelled as `List Char`;
nullable / optional values as `Option`.
-/

/-! ## Data model (`types.ts`) -/

/-- `Caption` from `types.ts`: a caption line with offsets relative to the
clip start. -/
structure Caption where
  text : String
  start_offset : ℚ
  end_offset : ℚ
  emphasis : List String
deriving DecidableEq

/-- `ToneAdaptation` from `types.ts`; the string-literal unions are modelled
as strings. -/
structure ToneAdaptation where
  pacing : String
  music_vibe : String
deriving DecidableEq

/-- `VisualBeat` from `types.ts`. -/
structure VisualBeat where
  image_concept : String
  text_overlay : String
  motion : String
  motion_intensity : ℚ
  duration : ℚ
deriving DecidableEq

/-- `StyleSpec` from `types.ts`. -/
structure StyleSpec where
  color_palette : List String
  typography : String
  composition : String
deriving DecidableEq

/-- `AssemblySpec` from `types.ts` (`aspect_ratio` is rendered as `aspect`
here). -/
structure AssemblySpec where
  aspect : String
  resolution : String
  fps : ℚ
  audio_format : String
  video_codec : String
  background_layer : String
  audio_waveform : Bool
  captions_layer : Bool
  hook_overlay : Bool
  image_transition : String
  transition_duration : ℚ
  text_animation : String
deriving DecidableEq

/-- `PodcastClip` from `types.ts`.  `source_file` is not declared in the
interface but is written by `handleUpload`'s map in `ContentFactory.tsx` and
read by `ReelsView.tsx`, so it is part of the runtime record. -/
structure PodcastClip where
  clip_id : String
  chunk_id : String
  start : ℚ
  «end» : ℚ
  refined_start : ℚ
  refined_end : ℚ
  refined_duration : ℚ
  viral_score : ℚ
  reasoning : String
  hook : String
  captions : List Caption
  reel_caption : String
  hashtags : List String
  tone : ToneAdaptation
  visual_beats : List VisualBeat
  style : StyleSpec
  assembly_spec : AssemblySpec
  source_file : Option String
deriving DecidableEq

/-- `PodcastAnalysisResult` from `types.ts`.  `selected_clips` is modelled as
optional because `handleUpload` guards it with `|| []`; `source_file` is read
off the response by `handleUpload` even though the interface does not declare
it. -/
structure PodcastAnalysisResult where
  selected_clips : Option (List PodcastClip)
  error : Option String
  source_file : Option String
deriving DecidableEq

/-! ## `ContentFactory.tsx` -/

namespace ContentFactory

/-- `getScoreColor` from `ContentFactory.tsx`. -/
def getScoreColor (score : ℚ) : String :=
  if score ≥ 0.9 then "text-green-500"
  else if score ≥ 0.75 then "text-yellow-500"
  else "text-orange-500"

/-- JavaScript truthiness of `data.error` (an optional string): `undefined`
and the empty string are falsy. -/
def errTruthy : Option String → Bool
  | none => false
  | some s => s ≠ ""

/-- The per-clip map in `handleUpload`:
`clip => ({ ...clip, source_file: data.source_file })`. -/
def withSource (src : Option String) (c : PodcastClip) : PodcastClip :=
  { c with source_file := src }

/-- One step of the stable descending-by-`viral_score` sort: insert a clip
before the first element whose score is not larger.  This is the standard
stable insertion realising `.sort((a, b) => b.viral_score - a.viral_score)`
(ECMAScript sort is stable and this comparator is a total preorder on
scores, so any stable sorted result is this one). -/
def insertClip (c : PodcastClip) : List PodcastClip → List PodcastClip
  | [] => [c]
  | x :: xs =>
    if x.viral_score ≤ c.viral_score then c :: x :: xs
    else x :: insertClip c xs

/-- `(data.selected_clips || []).sort((a, b) => b.viral_score - a.viral_score)`
modelled as a stable insertion sort, descending by `viral_score`. -/
def sortClips : List PodcastClip → List PodcastClip
  | [] => []
  | c :: cs => insertClip c (sortClips cs)

/-- The state of `clips` after `handleUpload` has received a parsed response
body `data` (lines 73–96 of `ContentFactory.tsx`): `setClips([])` ran before
the fetch, so when `data.error` is truthy the thrown error lands in the
`catch` block and the clip list stays empty; otherwise the selected clips
are sorted by viral score and each gets `source_file` attached. -/
def handleUploadResult (data : PodcastAnalysisResult) : List PodcastClip :=
  if errTruthy data.error then []
  else (sortClips (data.selected_clips.getD [])).map (withSource data.source_file)

end ContentFactory

/-! ## `ClipDetailView.tsx` -/

namespace ClipDetailView

/-- `getScoreColor` from `ClipDetailView.tsx`. -/
def getScoreColor (score : ℚ) : String :=
  if score ≥ 0.9 then "text-green-500"
  else if score ≥ 0.75 then "text-yellow-500"
  else "text-orange-500"

end ClipDetailView

/-! ## `SubtitleEditor.tsx` -/

namespace SubtitleEditor

/-- `handleSave` from `SubtitleEditor.tsx`: `onSave({ ...clip, captions })`. -/
def handleSave (clip : PodcastClip) (captions : List Caption) : PodcastClip :=
  { clip with captions := captions }

/-- `handleTextChange` from `SubtitleEditor.tsx`: replace the text of the
caption at `index` (the index always comes from the rendered list, hence the
in-bounds lookup). -/
def handleTextChange (captions : List Caption) (index : ℕ) (newText : String) :
    List Caption :=
  match captions.get? index with
  | none => captions
  | some c => captions.set index { c with text := newText }

/-- Which offset field `handleTimeChange` writes. -/
inductive TimeField
  | startOffset
  | endOffset
deriving DecidableEq

/-- `handleTimeChange` from `SubtitleEditor.tsx`.  `value` is the result of
`parseFloat` on the input string, `none` standing for `NaN` (in which case
the handler returns without changing anything); any parsed number is written
to the chosen field with no further validation. -/
def handleTimeChange (captions : List Caption) (index : ℕ) (field : TimeField)
    (value : Option ℚ) : List Caption :=
  match value with
  | none => captions
  | some v =>
    match captions.get? index with
    | none => captions
    | some c =>
      captions.set index
        (match field with
         | .startOffset => { c with start_offset := v }
         | .endOffset => { c with end_offset := v })

end SubtitleEditor

/-- The spec's Caption invariant for a clip of duration `dur`:
`0 ≤ start_offset < end_offset ≤ refined_duration`, and the captions are
ordered and non-overlapping (each caption's closed interval ends strictly
before the next one starts). -/
def captionInvariant (dur : ℚ) (captions : List Caption) : Prop :=
  (∀ c ∈ captions,
      0 ≤ c.start_offset ∧ c.start_offset < c.end_offset ∧ c.end_offset ≤ dur) ∧
  List.Chain' (fun a b => a.end_offset < b.start_offset) captions

instance (dur : ℚ) (captions : List Caption) :
    Decidable (captionInvariant dur captions) :=
  inferInstanceAs (Decidable
    ((∀ c ∈ captions,
        0 ≤ c.start_offset ∧ c.start_offset < c.end_offset ∧ c.end_offset ≤ dur) ∧
     List.Chain' (fun (a b : Caption) => a.end_offset < b.start_offset) captions))

/-! ## `ReelsView.tsx` -/

namespace ReelsView

/-- `getActiveCaption` from `ReelsView.tsx`:
`clip.captions.find(c => time >= c.start_offset && time <= c.end_offset)`.
`time` is relative to the clip start. -/
def getActiveCaption (captions : List Caption) (time : ℚ) : Option Caption :=
  captions.find? fun c =>
    decide (c.start_offset ≤ time) && decide (time ≤ c.end_offset)

end ReelsView

/-! ## JavaScript string and number primitives

Strings the code splits or parses are modelled as `List Char`. -/

/-- JS `String.prototype.split` with a one-character separator: the result is
never empty, `"".split(sep)` is `[""]`, and separators at the ends produce
empty fields. -/
def splitOnChar (sep : Char) : List Char → List (List Char)
  | [] => [[]]
  | c :: rest =>
    match splitOnChar sep rest with
    | [] => [[c]]
    | g :: gs => if c = sep then [] :: g :: gs else (c :: g) :: gs

/-- The longest decimal-digit prefix of `s` read as a number; `none` when `s`
does not start with a digit. -/
def parseDigits (s : List Char) : Option ℕ :=
  let ds := s.takeWhile Char.isDigit
  if ds.isEmpty then none
  else some (ds.foldl (fun acc c => acc * 10 + (c.toNat - 48)) 0)

/-- JS `parseInt` on a decimal string: skip leading whitespace, accept an
optional sign, then read the longest digit prefix, ignoring anything after
it; `none` stands for `NaN`.  (The inputs this model is applied to never use
the hexadecimal `0x` form.) -/
def parseIntJS (s : List Char) : Option ℤ :=
  match s.dropWhile (fun c => c == ' ' || c == '\t' || c == '\n' || c == '\r') with
  | '-' :: u => (parseDigits u).map (fun n => -(n : ℤ))
  | '+' :: u => (parseDigits u).map (fun n => (n : ℤ))
  | u => (parseDigits u).map (fun n => (n : ℤ))

/-- The decimal rendering of a natural number, as JS `Number.prototype.toString`
produces for a non-negative integer-valued number. -/
def natToChars (n : ℕ) : List Char :=
  if n = 0 then ['0']
  else ((Nat.digits 10 n).map Nat.digitChar).reverse

/-- Decimal rendering of an integer-valued JS number. -/
def intToChars (m : ℤ) : List Char :=
  if m < 0 then '-' :: natToChars m.natAbs else natToChars m.toNat

/-- JS `String.prototype.padStart(2, '0')`. -/
def padStart2 (s : List Char) : List Char :=
  List.replicate (2 - s.length) '0' ++ s

/-- JS `%` on numbers: remainder with the quotient truncated toward zero, so
the result carries the dividend's sign. -/
def jsMod (a b : ℚ) : ℚ :=
  a - b * (if 0 ≤ a / b then (⌊a / b⌋ : ℚ) else (⌈a / b⌉ : ℚ))

/-! ## `Dashboard.tsx` -/

namespace Dashboard

/-- `VideoMeta` from `Dashboard.tsx`. -/
structure VideoMeta where
  title : String
  duration : ℚ
  thumbnail : String
deriving DecidableEq

/-- `formatTime` from `Dashboard.tsx`:
`Math.floor(s / 60) + ":" + String(Math.floor(s % 60)).padStart(2, "0")`. -/
def formatTime (s : ℚ) : List Char :=
  intToChars ⌊s / 60⌋ ++ ':' :: padStart2 (intToChars ⌊jsMod s 60⌋)

/-- The parsing step of `handleTimeInput`: split on `:`; exactly two parts
are read as `MM:SS` (`parseInt(parts[0]) * 60 + parseInt(parts[1])`), any
other number of parts reads only the first as plain seconds; `none` (`NaN`)
aborts the update. -/
def parseTimeInput (value : List Char) : Option ℤ :=
  let parts := splitOnChar ':' value
  if parts.length = 2 then
    match parseIntJS (parts.getD 0 []), parseIntJS (parts.getD 1 []) with
    | some a, some b => some (a * 60 + b)
    | _, _ => none
  else parseIntJS (parts.getD 0 [])

/-- The clamp step of `handleTimeInput`: with video metadata loaded the
parsed seconds are clamped into `[0, meta.duration]`; without it they are
used as they are. -/
def clampSeconds (meta : Option VideoMeta) (s : ℤ) : ℚ :=
  match meta with
  | some m => max 0 (min (s : ℚ) m.duration)
  | none => (s : ℚ)

/-- The first argument of `handleTimeInput`, `'start' | 'end'`. -/
inductive TimeInputType
  | start
  | «end»
deriving DecidableEq

/-- `handleTimeInput` from `Dashboard.tsx`: parse, clamp when metadata is
loaded, then move only the chosen bound, refusing an update that would put
the start at or past the end (or the end at or before the start). -/
def handleTimeInput (meta : Option VideoMeta) (range : ℚ × ℚ)
    (type : TimeInputType) (value : List Char) : ℚ × ℚ :=
  match parseTimeInput value with
  | none => range
  | some s0 =>
    let seconds := clampSeconds meta s0
    match type with
    | .start => if seconds < range.2 then (seconds, range.2) else range
    | .«end» => if seconds > range.1 then (range.1, seconds) else range

/-- The start slider's `onChange` (`Dashboard.tsx` line 282): the requested
value is capped at `range[1] - 1`. -/
def startSliderChange (range : ℚ × ℚ) (value : ℚ) : ℚ × ℚ :=
  (min value (range.2 - 1), range.2)

/-- The end slider's `onChange` (`Dashboard.tsx` line 293): the requested
value is raised to at least `range[0] + 1`. -/
def endSliderChange (range : ℚ × ℚ) (value : ℚ) : ℚ × ℚ :=
  (range.1, max value (range.1 + 1))

end Dashboard

/-! ## File routing in `ContentFactory.handleUpload` -/

namespace ContentFactory

/-- `file.name.split('.').pop()?.toLowerCase()`: the part after the last dot
(the whole name when there is no dot), lowercased.  `split` never yields an
empty array, so `pop` always returns a string. -/
def extOf (name : List Char) : List Char :=
  ((splitOnChar '.' name).getLastD []).map Char.toLower

/-- The transcript extensions, routed to `/analyze-podcast`. -/
def transcriptExts : List (List Char) := ["txt".toList, "srt".toList, "vtt".toList]

/-- The video extensions, routed to `/upload-video`. -/
def videoExts : List (List Char) :=
  ["mp4".toList, "mov".toList, "avi".toList, "mkv".toList]

/-- `['txt', 'srt', 'vtt', 'mp4', 'mov', 'avi', 'mkv']`, the accepted list in
`handleUpload`. -/
def allowedExts : List (List Char) := transcriptExts ++ videoExts

/-- The two backend endpoints `handleUpload` can call. -/
inductive Endpoint
  | analyzePodcast
  | uploadVideo
deriving DecidableEq

/-- The request-routing part of `handleUpload` (`ContentFactory.tsx` lines
26–59): `none` when the extension check rejects the file (the handler
returns before any request), otherwise the endpoint chosen for the
extension. -/
def routeOf (name : List Char) : Option Endpoint :=
  if extOf name = [] ∨ extOf name ∉ allowedExts then none
  else if extOf name ∈ videoExts then some .uploadVideo
  else some .analyzePodcast

/-- The clip-list effect of the whole `handleUpload`: a rejected extension
leaves the clip list untouched (the early return precedes `setClips`); an
accepted file replaces it with the processed response body. -/
def handleUpload (prevClips : List PodcastClip) (name : List Char)
    (data : PodcastAnalysisResult) : List PodcastClip :=
  match routeOf name with
  | none => prevClips
  | some _ => handleUploadResult data

end ContentFactory

/-- The offsets of a caption, the only data `captionInvariant` looks at. -/
def captionOffsets (c : Caption) : ℚ × ℚ := (c.start_offset, c.end_offset)

/-- A concrete `PodcastClip` used as the base value of counterexamples and
witnesses. -/
def sampleClip : PodcastClip where
  clip_id := "clip_001"
  chunk_id := "chunk_001"
  start := 30
  «end» := 90
  refined_start := 32
  refined_end := 88
  refined_duration := 56
  viral_score := 1
  reasoning := "high emotional peak"
  hook := "You will not believe this"
  captions := []
  reel_caption := "wild moment"
  hashtags := ["#podcast"]
  tone := { pacing := "rapid-fire", music_vibe := "energetic" }
  visual_beats := []
  style := { color_palette := ["#000000"], typography := "sans", composition := "centered" }
  assembly_spec :=
    { aspect := "9:16", resolution := "1080x1920", fps := 30
      audio_format := "aac", video_codec := "h264", background_layer := "image"
      audio_waveform := true, captions_layer := true, hook_overlay := true
      image_transition := "cut", transition_duration := 1
      text_animation := "fade-in" }
  source_file := none

/-- Two clips with equal viral score, where the one later in the response has
the earlier start time. -/
def clipTieLateStart : PodcastClip :=
  { sampleClip with clip_id := "clip_A", viral_score := 1, start := 10 }

/-- See `clipTieLateStart`. -/
def clipTieEarlyStart : PodcastClip :=
  { sampleClip with clip_id := "clip_B", viral_score := 1, start := 5 }

/-! ## Caption-invariant lemmas -/

theorem captionInvariant_tail {dur : ℚ} {x : Caption} {xs : List Caption}
    (h : captionInvariant dur (x :: xs)) : captionInvariant dur xs :=
  ⟨fun c hc => h.1 c (List.mem_cons_of_mem x hc), h.2.tail⟩

theorem captionInvariant_head_lt {dur : ℚ} {x : Caption} {xs : List Caption}
    (h : captionInvariant dur (x :: xs)) :
    ∀ c ∈ xs, x.end_offset < c.start_offset := by
  induction xs generalizing x with
  | nil => simp
  | cons y ys ih =>
    intro c hc
    have hxy : x.end_offset < y.start_offset := (List.chain'_cons.mp h.2).1
    rcases List.mem_cons.mp hc with rfl | hc
    · exact hxy
    · have h' : captionInvariant dur (y :: ys) := captionInvariant_tail h
      have hyc := ih h' c hc
      have hy := (h.1 y (by simp)).2.1
      linarith

theorem list_set_self_of_get {α : Type} {l : List α} {i : ℕ} {a : α}
    (h : l.get? i = some a) : l.set i a = l := by
  induction l generalizing i with
  | nil => simp at h
  | cons x xs ih =>
    cases i with
    | zero => simp at h; simp [h]
    | succ n =>
      simp only [List.get?] at h
      simp [ih h]

theorem captionInvariant_two {dur : ℚ} {c₁ c₂ : Caption}
    (h₁ : 0 ≤ c₁.start_offset ∧ c₁.start_offset < c₁.end_offset ∧ c₁.end_offset ≤ dur)
    (h₂ : 0 ≤ c₂.start_offset ∧ c₂.start_offset < c₂.end_offset ∧ c₂.end_offset ≤ dur)
    (h₁₂ : c₁.end_offset < c₂.start_offset) :
    captionInvariant dur [c₁, c₂] := by
  constructor
  · intro c hc
    rcases List.mem_cons.mp hc with rfl | hc
    · exact h₁
    · rcases List.mem_singleton.mp hc with rfl
      exact h₂
  · exact List.chain'_cons.mpr ⟨h₁₂, List.chain'_singleton _⟩

theorem captionInvariant_of_offsets_eq {dur : ℚ} {l₁ l₂ : List Caption}
    (he : l₁.map captionOffsets = l₂.map captionOffsets)
    (h : captionInvariant dur l₁) : captionInvariant dur l₂ := by
  constructor
  · intro c hc
    have hmem : captionOffsets c ∈ l₂.map captionOffsets := List.mem_map_of_mem _ hc
    rw [← he] at hmem
    rcases List.mem_map.mp hmem with ⟨c', hc', hcc⟩
    have h1 := h.1 c' hc'
    have hs : c'.start_offset = c.start_offset := congrArg Prod.fst hcc
    have hend : c'.end_offset = c.end_offset := congrArg Prod.snd hcc
    rw [hs, hend] at h1
    exact h1
  · have h2 := h.2
    have hch : List.Chain' (fun p q : ℚ × ℚ => p.2 < q.1) (l₁.map captionOffsets) :=
      (List.chain'_map captionOffsets).mpr h2
    rw [he] at hch
    exact (List.chain'_map captionOffsets).mp hch

theorem handleTextChange_offsets (captions : List Caption) (i : ℕ) (t : String) :
    (SubtitleEditor.handleTextChange captions i t).map captionOffsets =
      captions.map captionOffsets := by
  unfold SubtitleEditor.handleTextChange
  cases hg : captions.get? i with
  | none => rfl
  | some c =>
    rw [List.map_set]
    have : captionOffsets { c with text := t } = captionOffsets c := rfl
    rw [this]
    apply list_set_self_of_get
    rw [List.get?_eq_getElem?] at hg ⊢
    rw [List.getElem?_map, hg]
    rfl

/-! ## Decimal rendering and parsing round-trip lemmas -/

theorem digitChar_val {d : ℕ} (hd : d < 10) : (Nat.digitChar d).toNat - 48 = d := by
  interval_cases d <;> decide

theorem digitChar_isDigit {d : ℕ} (hd : d < 10) :
    (Nat.digitChar d).isDigit = true := by
  interval_cases d <;> decide

theorem foldl_digitChar_reverse (l : List ℕ) (hl : ∀ d ∈ l, d < 10) (a : ℕ) :
    ((l.map Nat.digitChar).reverse.foldl (fun acc c => acc * 10 + (c.toNat - 48)) a) =
      a * 10 ^ l.length + Nat.ofDigits 10 l := by
  induction l generalizing a with
  | nil => simp
  | cons d t ih =>
    have hd : d < 10 := hl d (List.mem_cons_self d t)
    have ht : ∀ x ∈ t, x < 10 := fun x hx => hl x (List.mem_cons_of_mem d hx)
    simp only [List.map_cons, List.reverse_cons, List.foldl_append, List.foldl_cons,
      List.foldl_nil]
    rw [ih ht, digitChar_val hd, Nat.ofDigits_cons, List.length_cons]
    ring

theorem natToChars_foldl (n : ℕ) :
    (natToChars n).foldl (fun acc c => acc * 10 + (c.toNat - 48)) 0 = n := by
  unfold natToChars
  by_cases h : n = 0
  · rw [if_pos h, h]
    rfl
  · rw [if_neg h,
      foldl_digitChar_reverse _ (fun d hd => Nat.digits_lt_base (by norm_num) hd) 0]
    simp [Nat.ofDigits_digits]

theorem natToChars_all_digits (n : ℕ) : ∀ c ∈ natToChars n, c.isDigit = true := by
  unfold natToChars
  by_cases h : n = 0
  · rw [if_pos h]
    intro c hc
    rcases List.mem_singleton.mp hc with rfl
    decide
  · rw [if_neg h]
    intro c hc
    rcases List.mem_map.mp (List.mem_reverse.mp hc) with ⟨d, hdm, rfl⟩
    exact digitChar_isDigit (Nat.digits_lt_base (by norm_num) hdm)

theorem natToChars_ne_nil (n : ℕ) : natToChars n ≠ [] := by
  unfold natToChars
  by_cases h : n = 0
  · rw [if_pos h]
    simp
  · rw [if_neg h]
    simp [Nat.digits_ne_nil_iff_ne_zero, h]

theorem takeWhile_of_all {l : List Char} (h : ∀ c ∈ l, c.isDigit = true) :
    l.takeWhile Char.isDigit = l := by
  induction l with
  | nil => rfl
  | cons c rest ih =>
    rw [List.takeWhile_cons, if_pos (h c (List.mem_cons_self c rest))]
    rw [ih fun x hx => h x (List.mem_cons_of_mem c hx)]

theorem parseDigits_of_digits {l : List Char} (hne : l ≠ [])
    (h : ∀ c ∈ l, c.isDigit = true) :
    parseDigits l = some (l.foldl (fun acc c => acc * 10 + (c.toNat - 48)) 0) := by
  unfold parseDigits
  rw [takeWhile_of_all h]
  rw [if_neg (by simpa [List.isEmpty_iff] using hne)]

theorem digit_not_ws {c : Char} (hc : c.isDigit = true) :
    (c == ' ' || c == '\t' || c == '\n' || c == '\r') = false := by
  have h1 : c ≠ ' ' := by rintro rfl; exact absurd hc (by decide)
  have h2 : c ≠ '\t' := by rintro rfl; exact absurd hc (by decide)
  have h3 : c ≠ '\n' := by rintro rfl; exact absurd hc (by decide)
  have h4 : c ≠ '\r' := by rintro rfl; exact absurd hc (by decide)
  simp [h1, h2, h3, h4]

theorem parseIntJS_of_digits {l : List Char} (hne : l ≠ [])
    (h : ∀ c ∈ l, c.isDigit = true) :
    parseIntJS l =
      some ((l.foldl (fun acc c => acc * 10 + (c.toNat - 48)) 0 : ℕ) : ℤ) := by
  obtain ⟨c, u, rfl⟩ : ∃ c u, l = c :: u := by
    cases l with
    | nil => exact absurd rfl hne
    | cons c u => exact ⟨c, u, rfl⟩
  have hc := h c (List.mem_cons_self c u)
  have hcm : c ≠ '-' := by rintro rfl; exact absurd hc (by decide)
  have hcp : c ≠ '+' := by rintro rfl; exact absurd hc (by decide)
  unfold parseIntJS
  rw [List.dropWhile_cons, if_neg (by simp [digit_not_ws hc])]
  split
  · next u' heq =>
    exact absurd (List.head_eq_of_cons_eq heq) hcm
  · next u' heq =>
    exact absurd (List.head_eq_of_cons_eq heq) hcp
  · rw [parseDigits_of_digits (List.cons_ne_nil c u) h]
    rfl

theorem parseIntJS_natToChars (n : ℕ) : parseIntJS (natToChars n) = some (n : ℤ) := by
  rw [parseIntJS_of_digits (natToChars_ne_nil n) (natToChars_all_digits n),
    natToChars_foldl]

theorem foldl_digit_zeros (k : ℕ) (l : List Char) :
    (List.replicate k '0' ++ l).foldl (fun acc c => acc * 10 + (c.toNat - 48)) 0 =
      l.foldl (fun acc c => acc * 10 + (c.toNat - 48)) 0 := by
  induction k with
  | zero => rfl
  | succ k ih =>
    rw [List.replicate_succ, List.cons_append, List.foldl_cons]
    exact ih

theorem padStart2_all_digits {l : List Char} (h : ∀ c ∈ l, c.isDigit = true) :
    ∀ c ∈ padStart2 l, c.isDigit = true := by
  intro c hc
  rcases List.mem_append.mp hc with hrep | hml
  · rcases (List.eq_of_mem_replicate hrep) with rfl
    decide
  · exact h c hml

theorem parseIntJS_padStart2 (n : ℕ) :
    parseIntJS (padStart2 (natToChars n)) = some (n : ℤ) := by
  have hne : padStart2 (natToChars n) ≠ [] := by
    unfold padStart2
    intro hnil
    exact natToChars_ne_nil n (List.append_eq_nil.mp hnil).2
  rw [parseIntJS_of_digits hne (padStart2_all_digits (natToChars_all_digits n))]
  unfold padStart2
  rw [foldl_digit_zeros, natToChars_foldl]

theorem splitOnChar_cons (sep c : Char) (rest : List Char) :
    splitOnChar sep (c :: rest) =
      match splitOnChar sep rest with
      | [] => [[c]]
      | g :: gs => if c = sep then [] :: g :: gs else (c :: g) :: gs := rfl

theorem splitOnChar_of_not_mem {sep : Char} {l : List Char} (h : sep ∉ l) :
    splitOnChar sep l = [l] := by
  induction l with
  | nil => rfl
  | cons c rest ih =>
    rw [splitOnChar_cons, ih fun hm => h (List.mem_cons_of_mem c hm)]
    have hcs : c ≠ sep := fun hc => (List.ne_of_not_mem_cons h) hc.symm
    simp [hcs]

theorem splitOnChar_sep_append (sep : Char) (A B : List Char)
    (hA : sep ∉ A) (hB : sep ∉ B) :
    splitOnChar sep (A ++ sep :: B) = [A, B] := by
  induction A with
  | nil =>
    rw [List.nil_append, splitOnChar_cons, splitOnChar_of_not_mem hB]
    simp
  | cons a A ih =>
    have ha : a ≠ sep := fun hc => hA (by rw [hc]; exact List.mem_cons_self sep A)
    rw [List.cons_append, splitOnChar_cons,
      ih fun hm => hA (List.mem_cons_of_mem a hm)]
    simp [ha]

theorem digits_no_colon {l : List Char} (h : ∀ c ∈ l, c.isDigit = true) :
    ':' ∉ l := fun hm => absurd (h ':' hm) (by decide)

theorem intToChars_of_nonneg {m : ℤ} (h : 0 ≤ m) :
    intToChars m = natToChars m.toNat := by
  unfold intToChars
  rw [if_neg (not_lt.mpr h)]

/-! ## Extension-list facts -/

theorem transcript_ext_facts {e : List Char} (h : e ∈ ContentFactory.transcriptExts) :
    e ∈ ContentFactory.allowedExts ∧ e ∉ ContentFactory.videoExts ∧ e ≠ [] := by
  simp only [ContentFactory.transcriptExts, List.mem_cons, List.not_mem_nil,
    or_false] at h
  rcases h with rfl | rfl | rfl <;> decide

theorem video_ext_facts {e : List Char} (h : e ∈ ContentFactory.videoExts) :
    e ∈ ContentFactory.allowedExts ∧ e ≠ [] := by
  simp only [ContentFactory.videoExts, List.mem_cons, List.not_mem_nil,
    or_false] at h
  rcases h with rfl | rfl | rfl | rfl <;> decide

/-! ## Sorting lemmas for `ContentFactory.handleUpload` -/

namespace ContentFactory

theorem insertClip_perm (c : PodcastClip) (l : List PodcastClip) :
    (insertClip c l).Perm (c :: l) := by
  induction l with
  | nil => simp [insertClip]
  | cons x xs ih =>
    unfold insertClip
    by_cases h : x.viral_score ≤ c.viral_score
    · simp [h]
    · simp only [h, if_false]
      exact (ih.cons x).trans (List.Perm.swap c x xs)

theorem sortClips_perm (l : List PodcastClip) : (sortClips l).Perm l := by
  induction l with
  | nil => simp [sortClips]
  | cons c cs ih =>
    unfold sortClips
    exact (insertClip_perm c (sortClips cs)).trans (ih.cons c)

theorem insertClip_chain (c : PodcastClip) (l : List PodcastClip)
    (hl : List.Chain' (fun a b => b.viral_score ≤ a.viral_score) l) :
    List.Chain' (fun a b => b.viral_score ≤ a.viral_score) (insertClip c l) := by
  induction l with
  | nil => simp [insertClip]
  | cons x xs ih =>
    unfold insertClip
    by_cases h : x.viral_score ≤ c.viral_score
    · simp only [h, if_true]
      exact hl.cons h
    · simp only [h, if_false]
      have hins := ih hl.tail
      rw [List.chain'_cons']
      refine ⟨?_, hins⟩
      intro y hy
      cases xs with
      | nil =>
        simp [insertClip] at hy
        subst hy
        exact le_of_not_le h
      | cons z zs =>
        by_cases hz : z.viral_score ≤ c.viral_score
        · simp [insertClip, hz] at hy
          subst hy
          exact le_of_not_le h
        · simp [insertClip, hz] at hy
          subst hy
          exact (List.chain'_cons.mp hl).1

theorem sortClips_chain (l : List PodcastClip) :
    List.Chain' (fun a b => b.viral_score ≤ a.viral_score) (sortClips l) := by
  induction l with
  | nil => simp [sortClips]
  | cons c cs ih => exact insertClip_chain c (sortClips cs) ih

theorem insertClip_filter_of_eq {v : ℚ} {c : PodcastClip} (hc : c.viral_score = v)
    (l : List PodcastClip) :
    (insertClip c l).filter (fun x => decide (x.viral_score = v)) =
      c :: l.filter (fun x => decide (x.viral_score = v)) := by
  induction l with
  | nil => simp [insertClip, List.filter, hc]
  | cons x xs ih =>
    unfold insertClip
    by_cases h : x.viral_score ≤ c.viral_score
    · rw [if_pos h]
      simp [List.filter_cons, hc]
    · have hxv : ¬ x.viral_score = v := by
        intro hx
        exact h (le_of_eq (hx.trans hc.symm))
      rw [if_neg h]
      simp [List.filter_cons, hxv, ih]

theorem insertClip_filter_of_ne {v : ℚ} {c : PodcastClip} (hc : ¬ c.viral_score = v)
    (l : List PodcastClip) :
    (insertClip c l).filter (fun x => decide (x.viral_score = v)) =
      l.filter (fun x => decide (x.viral_score = v)) := by
  induction l with
  | nil => simp [insertClip, List.filter, hc]
  | cons x xs ih =>
    unfold insertClip
    by_cases h : x.viral_score ≤ c.viral_score
    · rw [if_pos h]
      simp [List.filter_cons, hc]
    · rw [if_neg h]
      simp [List.filter_cons, ih]

theorem sortClips_filter (v : ℚ) (l : List PodcastClip) :
    (sortClips l).filter (fun x => decide (x.viral_score = v)) =
      l.filter (fun x => decide (x.viral_score = v)) := by
  induction l with
  | nil => simp [sortClips]
  | cons c cs ih =>
    unfold sortClips
    by_cases hc : c.viral_score = v
    · rw [insertClip_filter_of_eq hc, ih, List.filter_cons, if_pos (by simp [hc])]
    · rw [insertClip_filter_of_ne hc, ih, List.filter_cons, if_neg (by simp [hc])]

end ContentFactory

/-! ## Theorems -/

/-- **C2.** Saving from the Subtitle Editor produces a clip identical to the
input clip in every field except `captions`, which is replaced by the edited
list. -/
theorem c2_subtitle_save_preserves_fields (clip : PodcastClip) (caps : List Caption) :
    (SubtitleEditor.handleSave clip caps).clip_id = clip.clip_id ∧
    (SubtitleEditor.handleSave clip caps).chunk_id = clip.chunk_id ∧
    (SubtitleEditor.handleSave clip caps).start = clip.start ∧
    (SubtitleEditor.handleSave clip caps).«end» = clip.«end» ∧
    (SubtitleEditor.handleSave clip caps).refined_start = clip.refined_start ∧
    (SubtitleEditor.handleSave clip caps).refined_end = clip.refined_end ∧
    (SubtitleEditor.handleSave clip caps).refined_duration = clip.refined_duration ∧
    (SubtitleEditor.handleSave clip caps).viral_score = clip.viral_score ∧
    (SubtitleEditor.handleSave clip caps).hook = clip.hook ∧
    (SubtitleEditor.handleSave clip caps).hashtags = clip.hashtags ∧
    (SubtitleEditor.handleSave clip caps).tone = clip.tone ∧
    (SubtitleEditor.handleSave clip caps).visual_beats = clip.visual_beats ∧
    (SubtitleEditor.handleSave clip caps).style = clip.style ∧
    (SubtitleEditor.handleSave clip caps).assembly_spec = clip.assembly_spec ∧
    (SubtitleEditor.handleSave clip caps).captions = caps := by
  repeat (first | constructor | rfl)

/-- **C9.** The score-colouring helpers duplicated in `ContentFactory.tsx`
and `ClipDetailView.tsx` are extensionally equal, and return the green class
for score ≥ 0.9, the yellow class for 0.75 ≤ score < 0.9, and the orange
class otherwise. -/
theorem c9_score_colors_agree (s : ℚ) :
    ContentFactory.getScoreColor s = ClipDetailView.getScoreColor s ∧
    (0.9 ≤ s → ContentFactory.getScoreColor s = "text-green-500") ∧
    (0.75 ≤ s ∧ s < 0.9 → ContentFactory.getScoreColor s = "text-yellow-500") ∧
    (s < 0.75 → ContentFactory.getScoreColor s = "text-orange-500") := by
  refine ⟨rfl, ?_, ?_, ?_⟩
  · intro h
    simp [ContentFactory.getScoreColor, ge_iff_le, h]
  · rintro ⟨h1, h2⟩
    simp [ContentFactory.getScoreColor, ge_iff_le, h1, not_le.mpr h2]
  · intro h
    have h2 : ¬ (0.9 : ℚ) ≤ s := by linarith
    have h3 : ¬ (0.75 : ℚ) ≤ s := not_le.mpr h
    simp [ContentFactory.getScoreColor, ge_iff_le, h2, h3]

/-- **C1 (counterexample).** A response carrying both an error and a
non-empty `selected_clips` list: `handleUpload` throws on `data.error` before
`setClips` runs, so the displayed clip list stays empty and the produced clip
is lost, contradicting the claim that every clip of `selected_clips` is
presented. -/
theorem c1_error_discards_clips_counterexample :
    ContentFactory.handleUploadResult
        { selected_clips := some [sampleClip], error := some "stage failed",
          source_file := none } = [] ∧
    sampleClip ∈
      (PodcastAnalysisResult.selected_clips
        { selected_clips := some [sampleClip], error := some "stage failed",
          source_file := none }).getD [] := by
  exact ⟨rfl, by simp⟩

/-- **C1 (amended).** When the response's `error` field is truthy the caller
receives an empty clip list — the clips in `selected_clips` are discarded,
not preserved; only when `error` is absent or empty does the displayed list
contain every clip of `selected_clips` (with `source_file` attached). -/
theorem c1_clips_only_without_error (data : PodcastAnalysisResult) :
    (ContentFactory.errTruthy data.error = true →
      ContentFactory.handleUploadResult data = []) ∧
    (ContentFactory.errTruthy data.error = false →
      ∀ c ∈ data.selected_clips.getD [],
        ContentFactory.withSource data.source_file c ∈
          ContentFactory.handleUploadResult data) := by
  constructor
  · intro h
    simp [ContentFactory.handleUploadResult, h]
  · intro h c hc
    simp only [ContentFactory.handleUploadResult, h, Bool.false_eq_true, if_false,
      List.mem_map]
    exact ⟨c, (ContentFactory.sortClips_perm _).mem_iff.mpr hc, rfl⟩

/-- Witness for the amended C1: on an error-free response the produced clip
is displayed, and on an error response the list is empty. -/
theorem c1_clips_only_without_error_witness :
    ContentFactory.withSource (some "ep1.mp4") sampleClip ∈
      ContentFactory.handleUploadResult
        { selected_clips := some [sampleClip], error := none,
          source_file := some "ep1.mp4" } ∧
    ContentFactory.handleUploadResult
        { selected_clips := some [sampleClip], error := some "boom",
          source_file := none } = [] :=
  ⟨(c1_clips_only_without_error
      { selected_clips := some [sampleClip], error := none,
        source_file := some "ep1.mp4" }).2 rfl sampleClip (by simp),
   (c1_clips_only_without_error
      { selected_clips := some [sampleClip], error := some "boom",
        source_file := none }).1 rfl⟩

/-- **C4.** On a successful analysis (error falsy), the displayed clip list
is a permutation of the response's `selected_clips` (each with `source_file`
attached) and adjacent displayed clips have non-increasing `viral_score`. -/
theorem c4_clips_sorted_by_score (data : PodcastAnalysisResult)
    (h : ContentFactory.errTruthy data.error = false) :
    (ContentFactory.handleUploadResult data).Perm
      ((data.selected_clips.getD []).map
        (ContentFactory.withSource data.source_file)) ∧
    List.Chain' (fun a b => b.viral_score ≤ a.viral_score)
      (ContentFactory.handleUploadResult data) := by
  simp only [ContentFactory.handleUploadResult, h, Bool.false_eq_true, if_false]
  constructor
  · exact (ContentFactory.sortClips_perm _).map _
  · rw [List.chain'_map]
    exact ContentFactory.sortClips_chain _

/-- Witness for C4 on a concrete two-clip response. -/
theorem c4_clips_sorted_by_score_witness :
    (ContentFactory.handleUploadResult
        { selected_clips := some [sampleClip, { sampleClip with viral_score := 0.95 }],
          error := none, source_file := none }).Perm
      (((PodcastAnalysisResult.selected_clips
          { selected_clips := some [sampleClip, { sampleClip with viral_score := 0.95 }],
            error := none, source_file := none }).getD []).map
        (ContentFactory.withSource none)) ∧
    List.Chain' (fun a b => b.viral_score ≤ a.viral_score)
      (ContentFactory.handleUploadResult
        { selected_clips := some [sampleClip, { sampleClip with viral_score := 0.95 }],
          error := none, source_file := none }) :=
  c4_clips_sorted_by_score _ rfl

/-- **C5 (counterexample).** The comparator
`(a, b) => b.viral_score - a.viral_score` looks only at scores, and
ECMAScript `sort` is stable, so on two equal-score clips the response order
is kept: the clip with the earlier start time stays second, contradicting
the claimed start-time tie-break. -/
theorem c5_tie_order_counterexample :
    clipTieLateStart.viral_score = clipTieEarlyStart.viral_score ∧
    clipTieEarlyStart.start < clipTieLateStart.start ∧
    ContentFactory.handleUploadResult
        { selected_clips := some [clipTieLateStart, clipTieEarlyStart],
          error := none, source_file := none } =
      [clipTieLateStart, clipTieEarlyStart] := by
  refine ⟨rfl, by norm_num [clipTieLateStart, clipTieEarlyStart, sampleClip], ?_⟩
  decide

/-- **C5 (amended).** Ties in `viral_score` are broken by position in the
response (the sort is stable), not by start time: for every score `v`, the
displayed clips with score `v` are exactly the response's clips with score
`v`, in response order, with `source_file` attached. -/
theorem c5_ties_keep_response_order (data : PodcastAnalysisResult) (v : ℚ)
    (h : ContentFactory.errTruthy data.error = false) :
    (ContentFactory.handleUploadResult data).filter
        (fun c => decide (c.viral_score = v)) =
      ((data.selected_clips.getD []).filter
          (fun c => decide (c.viral_score = v))).map
        (ContentFactory.withSource data.source_file) := by
  simp only [ContentFactory.handleUploadResult, h, Bool.false_eq_true, if_false]
  rw [List.filter_map]
  have hpf : (fun c => decide (c.viral_score = v)) ∘
      ContentFactory.withSource data.source_file =
      fun c => decide (c.viral_score = v) := funext fun c => rfl
  rw [hpf, ContentFactory.sortClips_filter]

/-- Witness for the amended C5 at the concrete tied pair. -/
theorem c5_ties_keep_response_order_witness :
    (ContentFactory.handleUploadResult
        { selected_clips := some [clipTieLateStart, clipTieEarlyStart],
          error := none, source_file := none }).filter
        (fun c => decide (c.viral_score = 1)) =
      (((PodcastAnalysisResult.selected_clips
          { selected_clips := some [clipTieLateStart, clipTieEarlyStart],
            error := none, source_file := none }).getD []).filter
          (fun c => decide (c.viral_score = 1))).map
        (ContentFactory.withSource none) :=
  c5_ties_keep_response_order _ 1 rfl

/-- **C3 (counterexample).** A time edit in the Subtitle Editor writes the
parsed number with no validation: starting from a single valid caption
(duration 1), setting its `start_offset` to 5 yields a caption list with
`start_offset ≥ end_offset`, breaking the invariant. -/
theorem c3_time_edit_breaks_invariant_counterexample :
    captionInvariant 1
      [{ text := "hello", start_offset := 0, end_offset := 1, emphasis := [] }] ∧
    ¬ captionInvariant 1
        (SubtitleEditor.handleTimeChange
          [{ text := "hello", start_offset := 0, end_offset := 1, emphasis := [] }]
          0 .startOffset (some 5)) := by
  constructor
  · constructor
    · intro c hc
      rcases List.mem_singleton.mp hc with rfl
      refine ⟨le_refl 0, by norm_num, le_refl 1⟩
    · simp
  · intro h
    have hc := h.1
      { text := "hello", start_offset := 5, end_offset := 1, emphasis := [] }
      (by simp [SubtitleEditor.handleTimeChange])
    have := hc.2.1
    norm_num at this

/-- **C3 (amended).** Text edits in the Subtitle Editor preserve the caption
invariant (they touch only the `text` field); offset edits
(`handleTimeChange`) perform no validation beyond rejecting `NaN` and can
break it. -/
theorem c3_text_edit_preserves_invariant (dur : ℚ) (captions : List Caption)
    (index : ℕ) (newText : String) (h : captionInvariant dur captions) :
    captionInvariant dur (SubtitleEditor.handleTextChange captions index newText) := by
  exact captionInvariant_of_offsets_eq
    (handleTextChange_offsets captions index newText).symm h

/-- Witness for the amended C3 on a concrete two-caption list. -/
theorem c3_text_edit_preserves_invariant_witness :
    captionInvariant 3
      (SubtitleEditor.handleTextChange
        [{ text := "hi", start_offset := 0, end_offset := 1, emphasis := [] },
         { text := "there", start_offset := 2, end_offset := 3, emphasis := [] }]
        0 "hey") :=
  c3_text_edit_preserves_invariant 3 _ 0 "hey"
    (captionInvariant_two (by norm_num) (by norm_num) (by norm_num))

/-- **C6.** Under the spec's caption invariant, the reels view's active
caption is exactly the caption whose closed interval contains the playback
time when one exists, and none otherwise: `getActiveCaption` returns `some c`
precisely when `c` is a caption of the list containing `t`, so at most one
caption is ever displayed. -/
theorem c6_active_caption_unique (dur : ℚ) (caps : List Caption) (t : ℚ)
    (hinv : captionInvariant dur caps) (c : Caption) :
    ReelsView.getActiveCaption caps t = some c ↔
      c ∈ caps ∧ c.start_offset ≤ t ∧ t ≤ c.end_offset := by
  induction caps with
  | nil => simp [ReelsView.getActiveCaption]
  | cons x xs ih =>
    by_cases hp : x.start_offset ≤ t ∧ t ≤ x.end_offset
    · have hfind : ReelsView.getActiveCaption (x :: xs) t = some x := by
        unfold ReelsView.getActiveCaption
        rw [List.find?_cons_of_pos]
        simp [hp.1, hp.2]
      rw [hfind]
      constructor
      · intro h
        obtain rfl : x = c := by injection h
        exact ⟨List.mem_cons_self x xs, hp⟩
      · rintro ⟨hmem, hs, he⟩
        rcases List.mem_cons.mp hmem with rfl | hmem
        · rfl
        · exfalso
          have hlt := captionInvariant_head_lt hinv c hmem
          -- t ≤ x.end_offset < c.start_offset ≤ t is absurd
          linarith [hp.2]
    · have hfind : ReelsView.getActiveCaption (x :: xs) t =
          ReelsView.getActiveCaption xs t := by
        unfold ReelsView.getActiveCaption
        rw [List.find?_cons_of_neg]
        simp only [Bool.and_eq_true, decide_eq_true_eq]
        exact hp
      rw [hfind, ih (captionInvariant_tail hinv)]
      constructor
      · rintro ⟨hmem, hi⟩
        exact ⟨List.mem_cons_of_mem x hmem, hi⟩
      · rintro ⟨hmem, hi⟩
        rcases List.mem_cons.mp hmem with rfl | hmem
        · exact absurd hi hp
        · exact ⟨hmem, hi⟩

/-- Witness for C6: at playback time 2 the second caption is active. -/
theorem c6_active_caption_unique_witness :
    ReelsView.getActiveCaption
        [{ text := "hi", start_offset := 0, end_offset := 1, emphasis := [] },
         { text := "there", start_offset := 2, end_offset := 3, emphasis := [] }]
        2 =
      some { text := "there", start_offset := 2, end_offset := 3, emphasis := [] } :=
  (c6_active_caption_unique 3 _ 2
      (captionInvariant_two (by norm_num) (by norm_num) (by norm_num)) _).mpr
    (by decide)

/-- **C7.** An uploaded file starts a request exactly when its lowercased
extension is accepted: transcript extensions go to `/analyze-podcast`, video
extensions to `/upload-video`, and any other extension causes no request and
leaves the displayed clip list unchanged. -/
theorem c7_upload_routing (name : List Char) (prev : List PodcastClip)
    (data : PodcastAnalysisResult) :
    (ContentFactory.extOf name ∈ ContentFactory.transcriptExts →
      ContentFactory.routeOf name = some ContentFactory.Endpoint.analyzePodcast) ∧
    (ContentFactory.extOf name ∈ ContentFactory.videoExts →
      ContentFactory.routeOf name = some ContentFactory.Endpoint.uploadVideo) ∧
    (ContentFactory.extOf name ∉ ContentFactory.allowedExts →
      ContentFactory.routeOf name = none ∧
      ContentFactory.handleUpload prev name data = prev) ∧
    ((ContentFactory.routeOf name).isSome = true ↔
      ContentFactory.extOf name ∈ ContentFactory.allowedExts) := by
  have hreject : ContentFactory.extOf name ∉ ContentFactory.allowedExts →
      ContentFactory.routeOf name = none := by
    intro h
    unfold ContentFactory.routeOf
    rw [if_pos (Or.inr h)]
  refine ⟨?_, ?_, ?_, ?_⟩
  · intro h
    obtain ⟨ha, hv, hne⟩ := transcript_ext_facts h
    unfold ContentFactory.routeOf
    rw [if_neg (not_or.mpr ⟨hne, not_not_intro ha⟩), if_neg hv]
  · intro h
    obtain ⟨ha, hne⟩ := video_ext_facts h
    unfold ContentFactory.routeOf
    rw [if_neg (not_or.mpr ⟨hne, not_not_intro ha⟩), if_pos h]
  · intro h
    refine ⟨hreject h, ?_⟩
    unfold ContentFactory.handleUpload
    rw [hreject h]
  · constructor
    · intro h
      by_contra hna
      rw [hreject hna] at h
      simp at h
    · intro h
      rcases List.mem_append.mp h with ht | hv
      · obtain ⟨ha, hvn, hne⟩ := transcript_ext_facts ht
        unfold ContentFactory.routeOf
        rw [if_neg (not_or.mpr ⟨hne, not_not_intro ha⟩), if_neg hvn]
        rfl
      · obtain ⟨ha, hne⟩ := video_ext_facts hv
        unfold ContentFactory.routeOf
        rw [if_neg (not_or.mpr ⟨hne, not_not_intro ha⟩), if_pos hv]
        rfl

/-- Witness for C7 on concrete file names of each kind. -/
theorem c7_upload_routing_witness :
    ContentFactory.routeOf "episode.MP4".toList =
      some ContentFactory.Endpoint.uploadVideo ∧
    ContentFactory.routeOf "notes.txt".toList =
      some ContentFactory.Endpoint.analyzePodcast ∧
    ContentFactory.handleUpload [sampleClip] "slides.pdf".toList
      { selected_clips := none, error := none, source_file := none } = [sampleClip] :=
  ⟨(c7_upload_routing "episode.MP4".toList []
      { selected_clips := none, error := none, source_file := none }).2.1
      (by decide),
   (c7_upload_routing "notes.txt".toList []
      { selected_clips := none, error := none, source_file := none }).1
      (by decide),
   ((c7_upload_routing "slides.pdf".toList [sampleClip]
      { selected_clips := none, error := none, source_file := none }).2.2.1
      (by decide)).2⟩

/-- **C8.** The Dashboard timeframe operations preserve `range[0] < range[1]`
(both sliders and `handleTimeInput`, with or without metadata), and when
video metadata is loaded `handleTimeInput` also keeps both bounds inside
`[0, meta.duration]`. -/
theorem c8_timeframe_invariant :
    (∀ (r : ℚ × ℚ) (v : ℚ), r.1 < r.2 →
      (Dashboard.startSliderChange r v).1 < (Dashboard.startSliderChange r v).2 ∧
      (Dashboard.endSliderChange r v).1 < (Dashboard.endSliderChange r v).2) ∧
    (∀ (meta : Option Dashboard.VideoMeta) (r : ℚ × ℚ)
        (ty : Dashboard.TimeInputType) (value : List Char), r.1 < r.2 →
      (Dashboard.handleTimeInput meta r ty value).1 <
        (Dashboard.handleTimeInput meta r ty value).2) ∧
    (∀ (m : Dashboard.VideoMeta) (r : ℚ × ℚ)
        (ty : Dashboard.TimeInputType) (value : List Char),
      0 ≤ r.1 → r.1 < r.2 → r.2 ≤ m.duration →
      0 ≤ (Dashboard.handleTimeInput (some m) r ty value).1 ∧
      (Dashboard.handleTimeInput (some m) r ty value).2 ≤ m.duration) := by
  refine ⟨?_, ?_, ?_⟩
  · intro r v h
    dsimp only [Dashboard.startSliderChange, Dashboard.endSliderChange]
    constructor
    · exact lt_of_le_of_lt (min_le_right _ _) (by linarith)
    · exact lt_of_lt_of_le (by linarith) (le_max_right _ _)
  · intro meta r ty value h
    unfold Dashboard.handleTimeInput
    cases hpv : Dashboard.parseTimeInput value with
    | none => exact h
    | some s0 =>
      dsimp only
      cases ty with
      | start =>
        dsimp only
        split
        · next hs => exact hs
        · exact h
      | «end» =>
        dsimp only
        split
        · next hs => exact hs
        · exact h
  · intro m r ty value h0 h hd
    have hdur : (0 : ℚ) ≤ m.duration := by linarith
    unfold Dashboard.handleTimeInput
    cases hpv : Dashboard.parseTimeInput value with
    | none => exact ⟨h0, hd⟩
    | some s0 =>
      have hc0 : 0 ≤ Dashboard.clampSeconds (some m) s0 := le_max_left _ _
      have hcd : Dashboard.clampSeconds (some m) s0 ≤ m.duration :=
        max_le hdur (min_le_right _ _)
      dsimp only
      cases ty with
      | start =>
        dsimp only
        split
        · exact ⟨hc0, hd⟩
        · exact ⟨h0, hd⟩
      | «end» =>
        dsimp only
        split
        · exact ⟨h0, hcd⟩
        · exact ⟨h0, hd⟩

/-- Witness for C8: a concrete `handleTimeInput` call with metadata loaded
keeps the invariant and the bounds. -/
theorem c8_timeframe_invariant_witness :
    0 ≤ (Dashboard.handleTimeInput
          (some { title := "vid", duration := 600, thumbnail := "t" })
          (0, 600) Dashboard.TimeInputType.start "5:00".toList).1 ∧
    (Dashboard.handleTimeInput
          (some { title := "vid", duration := 600, thumbnail := "t" })
          (0, 600) Dashboard.TimeInputType.start "5:00".toList).2 ≤
      (600 : ℚ) :=
  c8_timeframe_invariant.2.2 { title := "vid", duration := 600, thumbnail := "t" }
    (0, 600) Dashboard.TimeInputType.start "5:00".toList
    (by norm_num) (by norm_num) (by norm_num)

/-- **C10.** Formatting then parsing a time loses only the fractional
second: for `0 ≤ s ≤ duration`, `formatTime s` renders `⌊s/60⌋` minutes and
the zero-padded seconds `⌊s mod 60⌋`, `handleTimeInput`'s parser reads it
back as `minutes * 60 + seconds = ⌊s⌋`, and the clamp leaves that value
untouched. -/
theorem c10_format_parse_roundtrip (s : ℚ) (m : Dashboard.VideoMeta)
    (h0 : 0 ≤ s) (hd : s ≤ m.duration) :
    Dashboard.parseTimeInput (Dashboard.formatTime s) = some ⌊s⌋ ∧
    Dashboard.clampSeconds (some m) ⌊s⌋ = (⌊s⌋ : ℚ) := by
  have hM0 : (0 : ℤ) ≤ ⌊s / 60⌋ := Int.floor_nonneg.mpr (by positivity)
  have hq0 : (0 : ℚ) ≤ s / 60 := by positivity
  have hmod : jsMod s 60 = s - ((60 * ⌊s / 60⌋ : ℤ) : ℚ) := by
    unfold jsMod
    rw [if_pos hq0]
    push_cast
    ring
  have hSfloor : ⌊jsMod s 60⌋ = ⌊s⌋ - 60 * ⌊s / 60⌋ := by
    rw [hmod, Int.floor_sub_int]
  have hfl : ((⌊s / 60⌋ : ℚ)) ≤ s / 60 := Int.floor_le _
  have h60 : (60 : ℚ) * (⌊s / 60⌋ : ℚ) ≤ s := by
    have h1 := mul_le_mul_of_nonneg_left hfl (by norm_num : (0 : ℚ) ≤ 60)
    calc (60 : ℚ) * (⌊s / 60⌋ : ℚ) ≤ 60 * (s / 60) := h1
      _ = s := by ring
  have hS0 : (0 : ℤ) ≤ ⌊jsMod s 60⌋ := by
    rw [hSfloor]
    have hle : (60 * ⌊s / 60⌋ : ℤ) ≤ ⌊s⌋ := Int.le_floor.mpr (by push_cast; linarith)
    omega
  constructor
  · unfold Dashboard.formatTime
    rw [intToChars_of_nonneg hM0, intToChars_of_nonneg hS0]
    unfold Dashboard.parseTimeInput
    rw [splitOnChar_sep_append ':' _ _
      (digits_no_colon (natToChars_all_digits _))
      (digits_no_colon (padStart2_all_digits (natToChars_all_digits _)))]
    simp only [List.length_cons, List.length_nil, List.getD, List.get?_cons_zero,
      List.get?_cons_succ, Option.getD_some, if_pos]
    rw [parseIntJS_natToChars, parseIntJS_padStart2]
    simp only [Option.some.injEq]
    rw [Int.toNat_of_nonneg hM0, Int.toNat_of_nonneg hS0, hSfloor]
    ring
  · unfold Dashboard.clampSeconds
    have hfle : (⌊s⌋ : ℚ) ≤ m.duration := le_trans (Int.floor_le s) hd
    have hf0 : (0 : ℚ) ≤ (⌊s⌋ : ℚ) := by exact_mod_cast Int.floor_nonneg.mpr h0
    dsimp only
    rw [inf_eq_left.mpr hfle, sup_eq_right.mpr hf0]

/-- Witness for C10 at `s = 125` (formatted `2:05`) with a 600-second
video. -/
theorem c10_format_parse_roundtrip_witness :
    Dashboard.parseTimeInput (Dashboard.formatTime 125) = some ⌊(125 : ℚ)⌋ ∧
    Dashboard.clampSeconds (some { title := "v", duration := 600, thumbnail := "t" })
        ⌊(125 : ℚ)⌋ = (⌊(125 : ℚ)⌋ : ℚ) :=
  c10_format_parse_roundtrip 125 { title := "v", duration := 600, thumbnail := "t" }
    (by norm_num) (by norm_num)

/-- Witness for C9 at concrete scores in each band. -/
theorem c9_score_colors_agree_witness :
    ContentFactory.getScoreColor 0.95 = "text-green-500" ∧
    ContentFactory.getScoreColor 0.8 = "text-yellow-500" ∧
    ContentFactory.getScoreColor 0.5 = "text-orange-500" :=
  ⟨(c9_score_colors_agree 0.95).2.1 (by norm_num),
   (c9_score_colors_agree 0.8).2.2.1 (by norm_num),
   (c9_score_colors_agree 0.5).2.2.2 (by norm_num)⟩
